import Mathlib

/-!
Verification of the path-tree generator script `scripts/generate_file_tree.py`.

The script reads a flat text file of slash-delimited paths, keeps from each
path the suffix starting at the first segment equal to the anchor constant
`ROOT_NAME`, folds those suffixes into a nested string-keyed mapping, and
renders the mapping as an indented markdown outline.

The embedding below models Python strings at the character-list level where
the relevant Python primitives (`str.strip`, `str.split`, `list.sort`,
`list.index`) operate, so that every definition is executable and
kernel-reducible.  Python dictionaries (which preserve insertion order) are
modelled as association lists: a lookup returns the first binding of a key,
and inserting a fresh key appends at the end.
-/

/-- The anchor constant `ROOT_NAME` from the script. -/
def ROOT_NAME : String := "PROJECT INSTRUCTIONS"

/-- The input file name constant `INPUT_FILE` from the script. -/
def INPUT_FILE : String := "project_instructions_raw.txt"

/-- The output file name constant `OUTPUT_FILE` from the script. -/
def OUTPUT_FILE : String := "project_instructions_tree.md"

/-- Split a character list on a separator, mirroring Python `str.split(sep)`:
the empty input yields one empty segment, and consecutive separators yield
empty segments. -/
def splitChars (sep : Char) : List Char → List (List Char)
  | [] => [[]]
  | c :: cs =>
    let r := splitChars sep cs
    if c = sep then [] :: r
    else
      match r with
      | [] => [[c]]
      | seg :: segs => (c :: seg) :: segs

/-- Python `path.split('/')` (with an arbitrary one-character separator). -/
def strSplit (s : String) (sep : Char) : List String :=
  (splitChars sep s.data).map String.mk

/-- Python `line.strip()`: drop whitespace from both ends. -/
def strTrim (s : String) : String :=
  String.mk (((s.data.dropWhile Char.isWhitespace).reverse.dropWhile
    Char.isWhitespace).reverse)

/-- Lexicographic order on character lists by code point, the order used by
Python string comparison (and hence by `list.sort` on strings). -/
def charListLe : List Char → List Char → Bool
  | [], _ => true
  | _ :: _, [] => false
  | a :: as, b :: bs => if a < b then true else if b < a then false else charListLe as bs

/-- Python string order `a <= b` as a proposition. -/
def strLeP (a b : String) : Prop := charListLe a.data b.data = true

instance : DecidableRel strLeP := fun _ _ => instDecidableEqBool _ _

instance : IsTotal String strLeP where
  total := by
    have h : ∀ a b : List Char, charListLe a b = true ∨ charListLe b a = true := by
      intro a
      induction a with
      | nil => intro b; left; rfl
      | cons x xs ih =>
        intro b
        cases b with
        | nil => right; rfl
        | cons y ys =>
          rcases lt_trichotomy x y with hlt | heq | hgt
          · left; simp [charListLe, hlt]
          · subst heq
            rcases ih ys with h1 | h1
            · left; simpa [charListLe] using h1
            · right; simpa [charListLe] using h1
          · right; simp [charListLe, hgt]
    intro a b; exact h a.data b.data

instance : IsTrans String strLeP where
  trans := by
    have h : ∀ a b c : List Char, charListLe a b = true → charListLe b c = true →
        charListLe a c = true := by
      intro a
      induction a with
      | nil => intro b c _ _; rfl
      | cons x xs ih =>
        intro b c hab hbc
        cases b with
        | nil => simp [charListLe] at hab
        | cons y ys =>
          cases c with
          | nil => simp [charListLe] at hbc
          | cons z zs =>
            by_cases hxy : x < y
            · by_cases hyz : y < z
              · simp [charListLe, lt_trans hxy hyz]
              · by_cases hzy : z < y
                · simp [charListLe, hyz, hzy] at hbc
                · have : y = z := le_antisymm (not_lt.mp hzy) (not_lt.mp hyz)
                  subst this
                  simp [charListLe, hxy]
            · by_cases hyx : y < x
              · simp [charListLe, hxy, hyx] at hab
              · have hxy' : x = y := le_antisymm (not_lt.mp hyx) (not_lt.mp hxy)
                subst hxy'
                simp only [charListLe, if_neg hxy, if_neg hyx] at hab ⊢
                by_cases hxz : x < z
                · simp [hxz]
                · by_cases hzx : z < x
                  · simp [charListLe, hxz, hzx] at hbc
                  · simp only [charListLe, if_neg hxz, if_neg hzx] at hbc ⊢
                    exact ih ys zs hab hbc
    intro a b c; exact h a.data b.data c.data

instance : IsAntisymm String strLeP where
  antisymm := by
    have h : ∀ a b : List Char, charListLe a b = true → charListLe b a = true → a = b := by
      intro a
      induction a with
      | nil =>
        intro b _ hba
        cases b with
        | nil => rfl
        | cons y ys => simp [charListLe] at hba
      | cons x xs ih =>
        intro b hab hba
        cases b with
        | nil => simp [charListLe] at hab
        | cons y ys =>
          by_cases hxy : x < y
          · simp [charListLe, hxy, lt_asymm hxy] at hba
          · by_cases hyx : y < x
            · simp [charListLe, hxy, hyx] at hab
            · have hxy' : x = y := le_antisymm (not_lt.mp hyx) (not_lt.mp hxy)
              subst hxy'
              simp only [charListLe, if_neg hxy, if_neg hyx] at hab hba
              rw [ih ys hab hba]
    intro a b hab hba
    cases a with
    | mk da =>
      cases b with
      | mk db =>
        have := h da db hab hba
        simp_all

/-- A tree node: a mapping from segment name to child node, as built by the
nested Python dictionaries in `generate_tree`.  The list order is dictionary
insertion order. -/
inductive DTree : Type where
  | mk : List (String × DTree) → DTree

/-- The child bindings of a node. -/
def DTree.children : DTree → List (String × DTree)
  | .mk cs => cs

mutual

/-- Number of nodes of a tree (used as recursion fuel for the renderers). -/
def DTree.size : DTree → Nat
  | .mk cs => 1 + sizeL cs

/-- Total size of the trees bound in a child list. -/
def sizeL : List (String × DTree) → Nat
  | [] => 0
  | (_, t) :: rest => DTree.size t + sizeL rest

end

/-- Dictionary lookup `current[part]` (first binding of the key wins). -/
def lookupChild : List (String × DTree) → String → Option DTree
  | [], _ => none
  | (k, t) :: rest, name => if k = name then some t else lookupChild rest name

/-- Replace the value bound to an existing key, leaving everything else
unchanged (the functional account of mutating `current[part]` in place). -/
def setChild : List (String × DTree) → String → DTree → List (String × DTree)
  | [], _, _ => []
  | (k, t) :: rest, name, v =>
    if k = name then (k, v) :: rest else (k, t) :: setChild rest name v

/-- Walk/create nested mapping entries segment by segment: the loop
`for part in rel_parts: if part not in current: current[part] = {};
current = current[part]` of `generate_tree`.  A missing key is appended
(dictionary insertion order), an existing key is descended into. -/
def insertPath : DTree → List String → DTree
  | t, [] => t
  | .mk cs, p :: rest =>
    match lookupChild cs p with
    | some child => .mk (setChild cs p (insertPath child rest))
    | none => .mk (cs ++ [(p, insertPath (.mk []) rest)])

/-- Python `parts.index(a)`: index of the first occurrence, if any. -/
def indexOfSeg : List String → String → Option Nat
  | [], _ => none
  | x :: xs, a => if x = a then some 0 else (indexOfSeg xs a).map (· + 1)

/-- The per-path normalization of `generate_tree`: split on `/`, find the
first occurrence of `ROOT_NAME`, and keep the suffix from there; `none`
models the `ValueError` branch that skips the path. -/
def normalizePath (path : String) : Option (List String) :=
  let parts := strSplit path '/'
  match indexOfSeg parts ROOT_NAME with
  | some i => some (parts.drop i)
  | none => none

/-- One iteration of the `for path in paths` loop of `generate_tree`. -/
def buildStep (t : DTree) (path : String) : DTree :=
  match normalizePath path with
  | some rel => insertPath t rel
  | none => t

/-- The line loader: `[line.strip() for line in f if line.strip()]`. -/
def cleanLines (rawLines : List String) : List String :=
  (rawLines.map strTrim).filter (fun l => !l.isEmpty)

/-- Python `paths.sort()` on strings. -/
def sortLines (lines : List String) : List String :=
  List.insertionSort strLeP lines

/-- Fold the (already sorted) paths into the nested mapping. -/
def buildTree (paths : List String) : DTree :=
  paths.foldl buildStep (.mk [])

/-- The tree `generate_tree` builds from the raw input lines. -/
def treeOf (rawLines : List String) : DTree :=
  buildTree (sortLines (cleanLines rawLines))

/-- Descend through the tree along a segment sequence. -/
def followPath : DTree → List String → Option DTree
  | t, [] => some t
  | .mk cs, s :: rest =>
    match lookupChild cs s with
    | some c => followPath c rest
    | none => none

/-- The indent string `"  " * n`. -/
def indentStr (n : Nat) : String :=
  String.join (List.replicate n "  ")

/-- `sorted(node.keys())`. -/
def sortedKeys (cs : List (String × DTree)) : List String :=
  List.insertionSort strLeP (cs.map Prod.fst)

/-- Fueled version of `print_node`: iterate the sorted keys; at level 0 emit
a heading and recurse, at deeper levels emit a directory line and recurse
when the child has children, else emit a leaf line.  The fuel only bounds
the recursion depth; `render` below instantiates it sufficiently. -/
def renderF : Nat → DTree → Nat → List String
  | 0, _, _ => []
  | fuel+1, t, level =>
    (sortedKeys t.children).flatMap (fun name =>
      match lookupChild t.children name with
      | some child =>
        if level == 0 then
          ("# " ++ name) :: renderF fuel child (level + 1)
        else if child.children.isEmpty then
          [indentStr (level - 1) ++ "- " ++ name]
        else
          (indentStr (level - 1) ++ "- **" ++ name ++ "/**") :: renderF fuel child (level + 1)
      | none => [])

/-- `print_node(node, level)`: the list of lines it appends. -/
def render (t : DTree) (level : Nat) : List String :=
  renderF (DTree.size t) t level

/-- The full pure pipeline of `generate_tree` on the raw input lines:
strip and drop blank lines, sort, build the tree, render from level 0 and
join with newlines.  This string is what gets written to `OUTPUT_FILE`. -/
def outputOf (rawLines : List String) : String :=
  String.intercalate "\n" (render (treeOf rawLines) 0)

/-- Observable behavior of `generate_tree`: the input is `none` when the
input file is missing (the `FileNotFoundError` branch) and `some rawLines`
otherwise; the result is the list of console messages printed together with
the content written to the output file (`none` when nothing is written). -/
def generate_tree (input : Option (List String)) : List String × Option String :=
  match input with
  | none => (["Error: " ++ INPUT_FILE ++ " not found"], none)
  | some rawLines =>
    (["Tree generated in " ++ OUTPUT_FILE], some (outputOf rawLines))

/-- `renderF` with each emitted line annotated by the segment path (from the
synthetic root) of the node that emitted it. -/
def renderAnnF : Nat → DTree → Nat → List String → List (List String × String)
  | 0, _, _, _ => []
  | fuel+1, t, level, path =>
    (sortedKeys t.children).flatMap (fun name =>
      match lookupChild t.children name with
      | some child =>
        if level == 0 then
          (path ++ [name], "# " ++ name) ::
            renderAnnF fuel child (level + 1) (path ++ [name])
        else if child.children.isEmpty then
          [(path ++ [name], indentStr (level - 1) ++ "- " ++ name)]
        else
          (path ++ [name], indentStr (level - 1) ++ "- **" ++ name ++ "/**") ::
            renderAnnF fuel child (level + 1) (path ++ [name])
      | none => [])

/-- Path-annotated rendering with sufficient fuel. -/
def renderAnn (t : DTree) (level : Nat) (path : List String) :
    List (List String × String) :=
  renderAnnF (DTree.size t) t level path

/-- Order on child bindings by key, for the specification-side renderer. -/
def pairLeP (p q : String × DTree) : Prop := strLeP p.1 q.1

instance : DecidableRel pairLeP := fun _ _ => instDecidableEqBool _ _

instance : IsTotal (String × DTree) pairLeP :=
  ⟨fun a b => IsTotal.total (r := strLeP) a.1 b.1⟩

instance : IsTrans (String × DTree) pairLeP :=
  ⟨fun _ _ _ hab hbc => Trans.trans (r := strLeP) (s := strLeP) hab hbc⟩

/-- Child bindings in lexicographic order of name. -/
def sortPairs (cs : List (String × DTree)) : List (String × DTree) :=
  List.insertionSort pairLeP cs

/-- Modelled from the specification text of the renderer (spec section 4.4),
for comparison against `render`: visit the children of a node at depth
`depth ≥ 1` in lexicographic order of name; a node with at least one child
is emitted as `<indent>- **<name>/**` with `<indent>` two spaces repeated
`depth - 1` times, followed by its own children at `depth + 1`; a node with
no children is emitted as `<indent>- <name>`. -/
def specChildrenF : Nat → DTree → Nat → List String
  | 0, _, _ => []
  | fuel+1, .mk cs, depth =>
    (sortPairs cs).flatMap (fun p =>
      match p.2.children with
      | [] => [indentStr (depth - 1) ++ "- " ++ p.1]
      | _ :: _ =>
        (indentStr (depth - 1) ++ "- **" ++ p.1 ++ "/**") ::
          specChildrenF fuel p.2 (depth + 1))

/-- Specification-side rendering of the children of a node, with fuel
instantiated sufficiently. -/
def specChildren (t : DTree) (depth : Nat) : List String :=
  specChildrenF (DTree.size t) t depth

/-- Modelled from the specification text of the renderer (spec section 4.4):
each direct child of the synthetic root is emitted as a heading `# <name>`,
in lexicographic order, followed by its children at depth 1. -/
def specRenderRoot : DTree → List String
  | .mk cs => (sortPairs cs).flatMap (fun p => ("# " ++ p.1) :: specChildren p.2 1)

/-- No key occurs twice in the list. -/
def keysNodup : List String → Bool
  | [] => true
  | x :: xs => !(xs.contains x) && keysNodup xs

/-- Fueled well-formedness: at every node the keys are pairwise distinct
(true of every tree built through Python dictionaries). -/
def treeWFF : Nat → DTree → Bool
  | 0, _ => true
  | fuel+1, .mk cs => keysNodup (cs.map Prod.fst) && cs.all (fun p => treeWFF fuel p.2)

/-- Well-formedness with sufficient fuel. -/
def treeWF (t : DTree) : Bool :=
  treeWFF (DTree.size t) t

/-- Fueled check that every key anywhere in the tree is a non-empty string. -/
def namesOkF : Nat → DTree → Bool
  | 0, _ => true
  | fuel+1, .mk cs => cs.all (fun p => !p.1.isEmpty && namesOkF fuel p.2)

/-- Every node name in the tree is non-empty. -/
def allNamesOk (t : DTree) : Bool :=
  namesOkF (DTree.size t) t

/-! ### Basic facts about the association-list operations -/

theorem children_mk (cs : List (String × DTree)) : (DTree.mk cs).children = cs := rfl

theorem size_mk (cs : List (String × DTree)) :
    DTree.size (.mk cs) = 1 + sizeL cs := by
  simp [DTree.size]

theorem size_pos (t : DTree) : 1 ≤ DTree.size t := by
  cases t with
  | mk cs => rw [size_mk]; omega

theorem lookupChild_mem {cs : List (String × DTree)} {k : String} {c : DTree}
    (h : lookupChild cs k = some c) : (k, c) ∈ cs := by
  induction cs with
  | nil => simp [lookupChild] at h
  | cons p rest ih =>
    obtain ⟨k0, c0⟩ := p
    by_cases hk : k0 = k
    · rw [lookupChild, if_pos hk] at h
      obtain rfl : c0 = c := by injection h
      subst hk
      exact List.mem_cons_self _ _
    · rw [lookupChild, if_neg hk] at h
      exact List.mem_cons_of_mem _ (ih h)

theorem lookupChild_eq_none {cs : List (String × DTree)} {k : String} :
    lookupChild cs k = none ↔ k ∉ cs.map Prod.fst := by
  induction cs with
  | nil => simp [lookupChild]
  | cons p rest ih =>
    obtain ⟨k0, c0⟩ := p
    by_cases hk : k0 = k
    · subst hk
      simp [lookupChild]
    · rw [lookupChild, if_neg hk]
      simp [ih, Ne.symm hk]

theorem mem_sizeL {cs : List (String × DTree)} {p : String × DTree}
    (h : p ∈ cs) : DTree.size p.2 ≤ sizeL cs := by
  induction cs with
  | nil => simp at h
  | cons q rest ih =>
    obtain ⟨k0, c0⟩ := q
    rcases List.mem_cons.mp h with h1 | h1
    · subst h1; simp [sizeL]
    · calc DTree.size p.2 ≤ sizeL rest := ih h1
        _ ≤ _ := by simp [sizeL]

theorem lookupChild_size {cs : List (String × DTree)} {k : String} {c : DTree}
    (h : lookupChild cs k = some c) : DTree.size c ≤ sizeL cs :=
  mem_sizeL (p := (k, c)) (lookupChild_mem h)

/-! ### Fuel congruence and unfolding equations for the fueled functions -/

theorem renderF_congr : ∀ (f₁ : Nat), ∀ (f₂ : Nat) (t : DTree) (level : Nat),
    DTree.size t ≤ f₁ → DTree.size t ≤ f₂ → renderF f₁ t level = renderF f₂ t level := by
  intro f₁
  induction f₁ with
  | zero => intro f₂ t level h1 _; have := size_pos t; omega
  | succ f ih =>
    intro f₂ t level h1 h2
    cases f₂ with
    | zero => have := size_pos t; omega
    | succ g =>
      cases t with
      | mk cs =>
        rw [size_mk] at h1 h2
        simp only [renderF]
        apply List.flatMap_congr
        intro name _
        cases hl : lookupChild (DTree.mk cs).children name with
        | none => rfl
        | some child =>
          have hsz : DTree.size child ≤ sizeL cs := by
            rw [children_mk] at hl
            exact lookupChild_size hl
          have hrec : renderF f child (level + 1) = renderF g child (level + 1) :=
            ih g child (level + 1) (by omega) (by omega)
          simp only [hrec]

theorem render_eq (cs : List (String × DTree)) (level : Nat) :
    render (.mk cs) level = (sortedKeys cs).flatMap (fun name =>
      match lookupChild cs name with
      | some child =>
        if level == 0 then
          ("# " ++ name) :: render child (level + 1)
        else if child.children.isEmpty then
          [indentStr (level - 1) ++ "- " ++ name]
        else
          (indentStr (level - 1) ++ "- **" ++ name ++ "/**") :: render child (level + 1)
      | none => []) := by
  unfold render
  rw [show DTree.size (.mk cs) = sizeL cs + 1 by rw [size_mk]; omega]
  simp only [renderF, children_mk]
  apply List.flatMap_congr
  intro name _
  cases hl : lookupChild cs name with
  | none => rfl
  | some child =>
    have hsz : DTree.size child ≤ sizeL cs := lookupChild_size hl
    have hrec : renderF (sizeL cs) child (level + 1) =
        renderF (DTree.size child) child (level + 1) :=
      renderF_congr _ _ _ _ hsz le_rfl
    simp only [hrec]

theorem renderAnnF_congr : ∀ (f₁ : Nat), ∀ (f₂ : Nat) (t : DTree) (level : Nat)
    (path : List String), DTree.size t ≤ f₁ → DTree.size t ≤ f₂ →
    renderAnnF f₁ t level path = renderAnnF f₂ t level path := by
  intro f₁
  induction f₁ with
  | zero => intro f₂ t level path h1 _; have := size_pos t; omega
  | succ f ih =>
    intro f₂ t level path h1 h2
    cases f₂ with
    | zero => have := size_pos t; omega
    | succ g =>
      cases t with
      | mk cs =>
        rw [size_mk] at h1 h2
        simp only [renderAnnF]
        apply List.flatMap_congr
        intro name _
        cases hl : lookupChild (DTree.mk cs).children name with
        | none => rfl
        | some child =>
          have hsz : DTree.size child ≤ sizeL cs := by
            rw [children_mk] at hl
            exact lookupChild_size hl
          have hrec : renderAnnF f child (level + 1) (path ++ [name]) =
              renderAnnF g child (level + 1) (path ++ [name]) :=
            ih g child (level + 1) (path ++ [name]) (by omega) (by omega)
          simp only [hrec]

theorem renderAnn_eq (cs : List (String × DTree)) (level : Nat) (path : List String) :
    renderAnn (.mk cs) level path = (sortedKeys cs).flatMap (fun name =>
      match lookupChild cs name with
      | some child =>
        if level == 0 then
          (path ++ [name], "# " ++ name) :: renderAnn child (level + 1) (path ++ [name])
        else if child.children.isEmpty then
          [(path ++ [name], indentStr (level - 1) ++ "- " ++ name)]
        else
          (path ++ [name], indentStr (level - 1) ++ "- **" ++ name ++ "/**") ::
            renderAnn child (level + 1) (path ++ [name])
      | none => []) := by
  unfold renderAnn
  rw [show DTree.size (.mk cs) = sizeL cs + 1 by rw [size_mk]; omega]
  simp only [renderAnnF, children_mk]
  apply List.flatMap_congr
  intro name _
  cases hl : lookupChild cs name with
  | none => rfl
  | some child =>
    have hsz : DTree.size child ≤ sizeL cs := lookupChild_size hl
    have hrec : renderAnnF (sizeL cs) child (level + 1) (path ++ [name]) =
        renderAnnF (DTree.size child) child (level + 1) (path ++ [name]) :=
      renderAnnF_congr _ _ _ _ _ hsz le_rfl
    simp only [hrec]

theorem renderAnnF_snd : ∀ (f : Nat) (t : DTree) (level : Nat) (path : List String),
    (renderAnnF f t level path).map Prod.snd = renderF f t level := by
  intro f
  induction f with
  | zero => intro t level path; rfl
  | succ f ih =>
    intro t level path
    simp only [renderAnnF, renderF, List.map_flatMap]
    apply List.flatMap_congr
    intro name _
    cases hl : lookupChild t.children name with
    | none => rfl
    | some child =>
      by_cases hlev : (level == 0) = true
      · simp [hlev, ih]
      · by_cases hce : child.children.isEmpty = true
        · simp [hlev, hce]
        · simp [hlev, hce, ih]

theorem render_renderAnn (t : DTree) (level : Nat) (path : List String) :
    render t level = (renderAnn t level path).map Prod.snd := by
  unfold render renderAnn
  rw [renderAnnF_snd]

theorem all_ext {α : Type} {l : List α} {f g : α → Bool}
    (h : ∀ x ∈ l, f x = g x) : l.all f = l.all g := by
  induction l with
  | nil => rfl
  | cons x xs ih =>
    simp only [List.all_cons]
    rw [h x (List.mem_cons_self _ _), ih (fun y hy => h y (List.mem_cons_of_mem _ hy))]

theorem treeWFF_congr : ∀ (f₁ : Nat), ∀ (f₂ : Nat) (t : DTree),
    DTree.size t ≤ f₁ → DTree.size t ≤ f₂ → treeWFF f₁ t = treeWFF f₂ t := by
  intro f₁
  induction f₁ with
  | zero => intro f₂ t h1 _; have := size_pos t; omega
  | succ f ih =>
    intro f₂ t h1 h2
    cases f₂ with
    | zero => have := size_pos t; omega
    | succ g =>
      cases t with
      | mk cs =>
        rw [size_mk] at h1 h2
        simp only [treeWFF]
        congr 1
        apply all_ext
        intro p hp
        have hsz : DTree.size p.2 ≤ sizeL cs := mem_sizeL hp
        exact ih g p.2 (by omega) (by omega)

theorem treeWF_eq (cs : List (String × DTree)) :
    treeWF (.mk cs) = (keysNodup (cs.map Prod.fst) && cs.all (fun p => treeWF p.2)) := by
  unfold treeWF
  rw [show DTree.size (.mk cs) = sizeL cs + 1 by rw [size_mk]; omega]
  simp only [treeWFF]
  congr 1
  apply all_ext
  intro p hp
  exact treeWFF_congr _ _ _ (mem_sizeL hp) le_rfl

theorem namesOkF_congr : ∀ (f₁ : Nat), ∀ (f₂ : Nat) (t : DTree),
    DTree.size t ≤ f₁ → DTree.size t ≤ f₂ → namesOkF f₁ t = namesOkF f₂ t := by
  intro f₁
  induction f₁ with
  | zero => intro f₂ t h1 _; have := size_pos t; omega
  | succ f ih =>
    intro f₂ t h1 h2
    cases f₂ with
    | zero => have := size_pos t; omega
    | succ g =>
      cases t with
      | mk cs =>
        rw [size_mk] at h1 h2
        simp only [namesOkF]
        apply all_ext
        intro p hp
        have hsz : DTree.size p.2 ≤ sizeL cs := mem_sizeL hp
        rw [ih g p.2 (by omega) (by omega)]

theorem allNamesOk_eq (cs : List (String × DTree)) :
    allNamesOk (.mk cs) = cs.all (fun p => !p.1.isEmpty && allNamesOk p.2) := by
  unfold allNamesOk
  rw [show DTree.size (.mk cs) = sizeL cs + 1 by rw [size_mk]; omega]
  simp only [namesOkF]
  apply all_ext
  intro p hp
  rw [namesOkF_congr _ _ _ (mem_sizeL hp) le_rfl]

theorem specChildrenF_congr : ∀ (f₁ : Nat), ∀ (f₂ : Nat) (t : DTree) (depth : Nat),
    DTree.size t ≤ f₁ → DTree.size t ≤ f₂ →
    specChildrenF f₁ t depth = specChildrenF f₂ t depth := by
  intro f₁
  induction f₁ with
  | zero => intro f₂ t depth h1 _; have := size_pos t; omega
  | succ f ih =>
    intro f₂ t depth h1 h2
    cases f₂ with
    | zero => have := size_pos t; omega
    | succ g =>
      cases t with
      | mk cs =>
        rw [size_mk] at h1 h2
        simp only [specChildrenF]
        apply List.flatMap_congr
        intro p hp
        have hp' : p ∈ cs := ((List.perm_insertionSort pairLeP cs).mem_iff).mp hp
        have hsz : DTree.size p.2 ≤ sizeL cs := mem_sizeL hp'
        have hrec : specChildrenF f p.2 (depth + 1) = specChildrenF g p.2 (depth + 1) :=
          ih g p.2 (depth + 1) (by omega) (by omega)
        simp only [hrec]

theorem specChildren_eq (cs : List (String × DTree)) (depth : Nat) :
    specChildren (.mk cs) depth = (sortPairs cs).flatMap (fun p =>
      match p.2.children with
      | [] => [indentStr (depth - 1) ++ "- " ++ p.1]
      | _ :: _ =>
        (indentStr (depth - 1) ++ "- **" ++ p.1 ++ "/**") ::
          specChildren p.2 (depth + 1)) := by
  unfold specChildren
  rw [show DTree.size (.mk cs) = sizeL cs + 1 by rw [size_mk]; omega]
  simp only [specChildrenF]
  apply List.flatMap_congr
  intro p hp
  have hp' : p ∈ cs := ((List.perm_insertionSort pairLeP cs).mem_iff).mp hp
  have hrec : specChildrenF (sizeL cs) p.2 (depth + 1) =
      specChildrenF (DTree.size p.2) p.2 (depth + 1) :=
    specChildrenF_congr _ _ _ _ (mem_sizeL hp') le_rfl
  simp only [hrec]

/-! ### Idempotence of path insertion -/

theorem lookupChild_setChild_same {cs : List (String × DTree)} {k : String} {c : DTree}
    (h : lookupChild cs k = some c) (v : DTree) :
    lookupChild (setChild cs k v) k = some v := by
  induction cs with
  | nil => simp [lookupChild] at h
  | cons p rest ih =>
    obtain ⟨k0, c0⟩ := p
    by_cases hk : k0 = k
    · rw [setChild, if_pos hk, lookupChild, if_pos hk]
    · rw [lookupChild, if_neg hk] at h
      rw [setChild, if_neg hk, lookupChild, if_neg hk]
      exact ih h

theorem setChild_setChild (cs : List (String × DTree)) (k : String) (v w : DTree) :
    setChild (setChild cs k v) k w = setChild cs k w := by
  induction cs with
  | nil => rfl
  | cons p rest ih =>
    obtain ⟨k0, c0⟩ := p
    by_cases hk : k0 = k
    · rw [setChild, if_pos hk, setChild, if_pos hk, setChild, if_pos hk]
    · rw [setChild, if_neg hk, setChild, if_neg hk, setChild, if_neg hk, ih]

theorem lookupChild_append_none {cs : List (String × DTree)} {k : String}
    (h : lookupChild cs k = none) (w : DTree) :
    lookupChild (cs ++ [(k, w)]) k = some w := by
  induction cs with
  | nil => simp [lookupChild]
  | cons p rest ih =>
    obtain ⟨k0, c0⟩ := p
    by_cases hk : k0 = k
    · rw [lookupChild, if_pos hk] at h
      exact absurd h (by simp)
    · rw [lookupChild, if_neg hk] at h
      rw [List.cons_append, lookupChild, if_neg hk]
      exact ih h

theorem setChild_append_none {cs : List (String × DTree)} {k : String}
    (h : lookupChild cs k = none) (w v : DTree) :
    setChild (cs ++ [(k, w)]) k v = cs ++ [(k, v)] := by
  induction cs with
  | nil => simp [setChild]
  | cons p rest ih =>
    obtain ⟨k0, c0⟩ := p
    by_cases hk : k0 = k
    · rw [lookupChild, if_pos hk] at h
      exact absurd h (by simp)
    · rw [lookupChild, if_neg hk] at h
      rw [List.cons_append, setChild, if_neg hk, ih h, List.cons_append]

theorem insertPath_idem : ∀ (p : List String) (t : DTree),
    insertPath (insertPath t p) p = insertPath t p := by
  intro p
  induction p with
  | nil => intro t; cases t; rfl
  | cons s rest ih =>
    intro t
    cases t with
    | mk cs =>
      cases hl : lookupChild cs s with
      | some child =>
        simp only [insertPath, hl, lookupChild_setChild_same hl, setChild_setChild, ih]
      | none =>
        simp only [insertPath, hl, lookupChild_append_none hl, setChild_append_none hl, ih]

theorem buildStep_idem (t : DTree) (x : String) :
    buildStep (buildStep t x) x = buildStep t x := by
  unfold buildStep
  cases h : normalizePath x with
  | none => rfl
  | some rel => exact insertPath_idem rel t

/-! ### The index of the first anchor occurrence -/

theorem indexOfSeg_eq_none {l : List String} {a : String} :
    indexOfSeg l a = none ↔ a ∉ l := by
  induction l with
  | nil => simp [indexOfSeg]
  | cons x xs ih =>
    by_cases hx : x = a
    · subst hx
      simp [indexOfSeg]
    · rw [indexOfSeg, if_neg hx]
      simp [Option.map_eq_none, ih, Ne.symm hx]

theorem indexOfSeg_first {a : String} : ∀ (pre post : List String),
    a ∉ pre → indexOfSeg (pre ++ a :: post) a = some pre.length := by
  intro pre
  induction pre with
  | nil => intro post _; simp [indexOfSeg]
  | cons x xs ih =>
    intro post hpre
    have hx : x ≠ a := fun h => hpre (h ▸ List.mem_cons_self _ _)
    have hxs : a ∉ xs := fun h => hpre (List.mem_cons_of_mem _ h)
    rw [List.cons_append, indexOfSeg, if_neg hx, ih post hxs]
    rfl

/-! ### Sorting facts -/

theorem sortLines_perm (l : List String) : List.Perm (sortLines l) l :=
  List.perm_insertionSort strLeP l

theorem sortLines_sorted (l : List String) : List.Sorted strLeP (sortLines l) :=
  List.sorted_insertionSort strLeP l

theorem sortLines_eq_of_perm {l₁ l₂ : List String} (h : List.Perm l₁ l₂) :
    sortLines l₁ = sortLines l₂ :=
  List.eq_of_perm_of_sorted
    (((sortLines_perm l₁).trans h).trans (sortLines_perm l₂).symm)
    (sortLines_sorted l₁) (sortLines_sorted l₂)

theorem cleanLines_perm {l₁ l₂ : List String} (h : List.Perm l₁ l₂) :
    List.Perm (cleanLines l₁) (cleanLines l₂) :=
  (h.map strTrim).filter _

theorem strLeP_refl (a : String) : strLeP a a := by
  show charListLe a.data a.data = true
  induction a.data with
  | nil => rfl
  | cons x xs ih => simp [charListLe, ih]

/-! ### Duplicate input lines do not change the result -/

theorem foldl_orderedInsert_mem {x : String} : ∀ (s : List String),
    List.Sorted strLeP s → x ∈ s → ∀ t,
    List.foldl buildStep t (List.orderedInsert strLeP x s) = List.foldl buildStep t s := by
  intro s
  induction s with
  | nil => intro _ hx; simp at hx
  | cons y ys ih =>
    intro hs hx t
    by_cases hxy : strLeP x y
    · have hyx : strLeP y x := by
        rcases List.mem_cons.mp hx with h1 | h1
        · rw [h1]; exact strLeP_refl y
        · exact (List.sorted_cons.mp hs).1 x h1
      have hxy' : x = y := IsAntisymm.antisymm _ _ hxy hyx
      subst hxy'
      rw [show List.orderedInsert strLeP x (x :: ys) = x :: x :: ys from by
        rw [List.orderedInsert, if_pos hxy]]
      simp only [List.foldl_cons]
      rw [buildStep_idem]
    · have hx' : x ∈ ys := by
        rcases List.mem_cons.mp hx with h1 | h1
        · exact absurd (h1 ▸ strLeP_refl x) hxy
        · exact h1
      rw [show List.orderedInsert strLeP x (y :: ys) = y :: List.orderedInsert strLeP x ys from by
        rw [List.orderedInsert, if_neg hxy]]
      simp only [List.foldl_cons]
      exact ih (List.sorted_cons.mp hs).2 hx' (buildStep t y)

theorem outputOf_dup {x : String} {lines : List String} (hx : x ∈ lines) :
    outputOf (x :: lines) = outputOf lines := by
  unfold outputOf treeOf buildTree
  by_cases hne : (strTrim x).isEmpty = true
  · have hcl : cleanLines (x :: lines) = cleanLines lines := by
      simp [cleanLines, hne]
    rw [hcl]
  · have hcl : cleanLines (x :: lines) = strTrim x :: cleanLines lines := by
      simp [cleanLines, hne]
    rw [hcl]
    have hmem : strTrim x ∈ cleanLines lines := by
      apply List.mem_filter.mpr
      refine ⟨List.mem_map_of_mem strTrim hx, ?_⟩
      simp [hne]
    have hsort : sortLines (strTrim x :: cleanLines lines)
        = List.orderedInsert strLeP (strTrim x) (sortLines (cleanLines lines)) := rfl
    rw [hsort]
    have hmem' : strTrim x ∈ sortLines (cleanLines lines) :=
      ((sortLines_perm _).mem_iff).mpr hmem
    rw [foldl_orderedInsert_mem _ (sortLines_sorted _) hmem']

theorem outputOf_perm {l₁ l₂ : List String} (h : List.Perm l₁ l₂) :
    outputOf l₁ = outputOf l₂ := by
  unfold outputOf treeOf
  rw [sortLines_eq_of_perm (cleanLines_perm h)]

/-! ### Well-formedness: every level of a built tree has pairwise distinct keys -/

theorem keysNodup_iff {l : List String} : keysNodup l = true ↔ l.Nodup := by
  induction l with
  | nil => simp [keysNodup]
  | cons x xs ih =>
    rw [keysNodup]
    simp [List.nodup_cons, ih, List.contains]

theorem setChild_keys (cs : List (String × DTree)) (k : String) (v : DTree) :
    (setChild cs k v).map Prod.fst = cs.map Prod.fst := by
  induction cs with
  | nil => rfl
  | cons p rest ih =>
    obtain ⟨k0, c0⟩ := p
    by_cases hk : k0 = k
    · rw [setChild, if_pos hk]
      simp
    · rw [setChild, if_neg hk]
      simp [ih]

theorem all_setChild {cs : List (String × DTree)} {g : String × DTree → Bool}
    {k : String} {v : DTree} (h : cs.all g = true)
    (hv : ∀ k0 c0, (k0, c0) ∈ cs → g (k0, c0) = true → g (k0, v) = true) :
    (setChild cs k v).all g = true := by
  induction cs with
  | nil => rfl
  | cons p rest ih =>
    obtain ⟨k0, c0⟩ := p
    rw [List.all_cons] at h
    obtain ⟨h1, h2⟩ := Bool.and_eq_true_iff.mp h
    by_cases hk : k0 = k
    · rw [setChild, if_pos hk, List.all_cons]
      rw [hv k0 c0 (List.mem_cons_self _ _) h1, h2]
      rfl
    · rw [setChild, if_neg hk, List.all_cons]
      rw [h1, ih h2 (fun k1 c1 hm hg => hv k1 c1 (List.mem_cons_of_mem _ hm) hg)]
      rfl

theorem treeWF_nil : treeWF (.mk []) = true := rfl

theorem treeWF_keys {cs : List (String × DTree)} (h : treeWF (.mk cs) = true) :
    keysNodup (cs.map Prod.fst) = true := by
  rw [treeWF_eq] at h
  exact (Bool.and_eq_true_iff.mp h).1

theorem treeWF_children {cs : List (String × DTree)} (h : treeWF (.mk cs) = true)
    {p : String × DTree} (hp : p ∈ cs) : treeWF p.2 = true := by
  rw [treeWF_eq] at h
  exact List.all_eq_true.mp (Bool.and_eq_true_iff.mp h).2 p hp

theorem insertPath_WF : ∀ (p : List String) (t : DTree),
    treeWF t = true → treeWF (insertPath t p) = true := by
  intro p
  induction p with
  | nil => intro t h; cases t; exact h
  | cons s rest ih =>
    intro t h
    cases t with
    | mk cs =>
      cases hl : lookupChild cs s with
      | some child =>
        have hkeys := treeWF_keys h
        have hchild : treeWF child = true := treeWF_children h (lookupChild_mem hl)
        have hall : cs.all (fun p => treeWF p.2) = true := by
          rw [treeWF_eq] at h
          exact (Bool.and_eq_true_iff.mp h).2
        simp only [insertPath, hl]
        rw [treeWF_eq]
        apply Bool.and_eq_true_iff.mpr
        constructor
        · rw [setChild_keys]
          exact hkeys
        · apply all_setChild hall
          intro k0 c0 _ _
          exact ih child hchild
      | none =>
        simp only [insertPath, hl]
        rw [treeWF_eq]
        apply Bool.and_eq_true_iff.mpr
        constructor
        · rw [List.map_append]
          rw [keysNodup_iff]
          apply List.Nodup.append
          · exact keysNodup_iff.mp (treeWF_keys h)
          · simp
          · simp only [List.map_cons, List.map_nil]
            intro a ha hb
            simp at hb
            subst hb
            exact (lookupChild_eq_none.mp hl) ha
        · rw [List.all_append]
          apply Bool.and_eq_true_iff.mpr
          constructor
          · rw [treeWF_eq] at h
            exact (Bool.and_eq_true_iff.mp h).2
          · simp only [List.all_cons, List.all_nil, Bool.and_true]
            exact ih (.mk []) treeWF_nil

theorem buildStep_WF (t : DTree) (x : String) (h : treeWF t = true) :
    treeWF (buildStep t x) = true := by
  unfold buildStep
  cases normalizePath x with
  | none => exact h
  | some rel => exact insertPath_WF rel t h

theorem foldl_buildStep_WF : ∀ (s : List String) (t : DTree),
    treeWF t = true → treeWF (List.foldl buildStep t s) = true := by
  intro s
  induction s with
  | nil => intro t h; exact h
  | cons x xs ih => intro t h; exact ih _ (buildStep_WF t x h)

theorem treeOf_WF (rawLines : List String) : treeWF (treeOf rawLines) = true :=
  foldl_buildStep_WF _ _ treeWF_nil

/-! ### Non-empty names are preserved by insertion -/

theorem allNamesOk_nil : allNamesOk (.mk []) = true := rfl

theorem insertPath_namesOk : ∀ (p : List String) (t : DTree),
    allNamesOk t = true → (∀ s ∈ p, s.isEmpty = false) →
    allNamesOk (insertPath t p) = true := by
  intro p
  induction p with
  | nil => intro t h _; cases t; exact h
  | cons s rest ih =>
    intro t h hseg
    have hs : s.isEmpty = false := hseg s (List.mem_cons_self _ _)
    have hrest : ∀ x ∈ rest, x.isEmpty = false :=
      fun x hx => hseg x (List.mem_cons_of_mem _ hx)
    cases t with
    | mk cs =>
      have hall : cs.all (fun p => !p.1.isEmpty && allNamesOk p.2) = true := by
        rw [allNamesOk_eq] at h
        exact h
      cases hl : lookupChild cs s with
      | some child =>
        have hchild : allNamesOk child = true := by
          have := List.all_eq_true.mp hall _ (lookupChild_mem hl)
          exact (Bool.and_eq_true_iff.mp this).2
        simp only [insertPath, hl]
        rw [allNamesOk_eq]
        apply all_setChild hall
        intro k0 c0 _ hg
        apply Bool.and_eq_true_iff.mpr
        exact ⟨(Bool.and_eq_true_iff.mp hg).1, ih child hchild hrest⟩
      | none =>
        simp only [insertPath, hl]
        rw [allNamesOk_eq, List.all_append]
        apply Bool.and_eq_true_iff.mpr
        refine ⟨hall, ?_⟩
        simp only [List.all_cons, List.all_nil, Bool.and_true]
        apply Bool.and_eq_true_iff.mpr
        refine ⟨by rw [hs]; rfl, ih (.mk []) allNamesOk_nil hrest⟩

theorem buildStep_namesOk (t : DTree) (x : String) (h : allNamesOk t = true)
    (hx : ∀ s ∈ strSplit x '/', s.isEmpty = false) :
    allNamesOk (buildStep t x) = true := by
  unfold buildStep
  cases hn : normalizePath x with
  | none => exact h
  | some rel =>
    apply insertPath_namesOk rel t h
    intro s hs
    apply hx
    simp only [normalizePath] at hn
    cases hi : indexOfSeg (strSplit x '/') ROOT_NAME with
    | none => rw [hi] at hn; simp at hn
    | some i =>
      rw [hi] at hn
      simp only [Option.some.injEq] at hn
      rw [← hn] at hs
      exact List.mem_of_mem_drop hs

theorem foldl_namesOk : ∀ (s : List String) (t : DTree), allNamesOk t = true →
    (∀ l ∈ s, ∀ seg ∈ strSplit l '/', seg.isEmpty = false) →
    allNamesOk (List.foldl buildStep t s) = true := by
  intro s
  induction s with
  | nil => intro t h _; exact h
  | cons x xs ih =>
    intro t h hall
    exact ih _ (buildStep_namesOk t x h (hall x (List.mem_cons_self _ _)))
      (fun l hl => hall l (List.mem_cons_of_mem _ hl))

/-! ### Reachability of inserted paths -/

theorem lookupChild_setChild_ne {cs : List (String × DTree)} {k a : String}
    (h : k ≠ a) (v : DTree) :
    lookupChild (setChild cs k v) a = lookupChild cs a := by
  induction cs with
  | nil => rfl
  | cons p rest ih =>
    obtain ⟨k0, c0⟩ := p
    by_cases hk : k0 = k
    · subst hk
      rw [setChild, if_pos rfl, lookupChild, lookupChild, if_neg h, if_neg h]
    · rw [setChild, if_neg hk]
      by_cases ha : k0 = a
      · rw [lookupChild, if_pos ha, lookupChild, if_pos ha]
      · rw [lookupChild, if_neg ha, lookupChild, if_neg ha, ih]

theorem lookupChild_append_ne {cs : List (String × DTree)} {k a : String}
    (h : k ≠ a) (w : DTree) :
    lookupChild (cs ++ [(k, w)]) a = lookupChild cs a := by
  induction cs with
  | nil => simp [lookupChild, if_neg h]
  | cons p rest ih =>
    obtain ⟨k0, c0⟩ := p
    by_cases ha : k0 = a
    · rw [List.cons_append, lookupChild, if_pos ha, lookupChild, if_pos ha]
    · rw [List.cons_append, lookupChild, if_neg ha, lookupChild, if_neg ha, ih]

theorem followPath_insertPath_prefix : ∀ (π : List String) (ρ : List String) (t : DTree),
    π <+: ρ → (followPath (insertPath t ρ) π).isSome := by
  intro π
  induction π with
  | nil =>
    intro ρ t _
    cases insertPath t ρ with
    | mk cs => simp [followPath]
  | cons a π' ih =>
    intro ρ t hpre
    obtain ⟨δ, hδ⟩ := hpre
    subst hδ
    cases t with
    | mk cs =>
      rw [List.cons_append]
      cases hl : lookupChild cs a with
      | some child =>
        simp only [insertPath, hl, followPath, lookupChild_setChild_same hl]
        exact ih (π' ++ δ) child (List.prefix_append π' δ)
      | none =>
        simp only [insertPath, hl, followPath, lookupChild_append_none hl]
        exact ih (π' ++ δ) (.mk []) (List.prefix_append π' δ)

theorem followPath_insertPath_mono : ∀ (π : List String) (t : DTree) (q : List String),
    (followPath t π).isSome → (followPath (insertPath t q) π).isSome := by
  intro π
  induction π with
  | nil =>
    intro t q _
    cases insertPath t q with
    | mk cs => simp [followPath]
  | cons a π' ih =>
    intro t q h
    cases t with
    | mk cs =>
      cases hl : lookupChild cs a with
      | none => simp [followPath, hl] at h
      | some c =>
        simp only [followPath, hl] at h
        cases q with
        | nil => simpa [insertPath, followPath, hl] using h
        | cons b q' =>
          cases hlb : lookupChild cs b with
          | some cb =>
            simp only [insertPath, hlb]
            by_cases hab : b = a
            · subst hab
              rw [hl] at hlb
              obtain rfl : c = cb := by injection hlb
              simp only [followPath, lookupChild_setChild_same hl]
              exact ih c q' h
            · simp only [followPath, lookupChild_setChild_ne hab, hl]
              exact h
          | none =>
            simp only [insertPath, hlb]
            by_cases hab : b = a
            · subst hab
              rw [hl] at hlb
              cases hlb
            · simp only [followPath, lookupChild_append_ne hab, hl]
              exact h

theorem followPath_buildStep_mono (t : DTree) (x : String) (π : List String)
    (h : (followPath t π).isSome) : (followPath (buildStep t x) π).isSome := by
  unfold buildStep
  cases normalizePath x with
  | none => exact h
  | some rel => exact followPath_insertPath_mono π t rel h

theorem foldl_followPath_mono : ∀ (s : List String) (t : DTree) (π : List String),
    (followPath t π).isSome → (followPath (List.foldl buildStep t s) π).isSome := by
  intro s
  induction s with
  | nil => intro t π h; exact h
  | cons x xs ih => intro t π h; exact ih _ π (followPath_buildStep_mono t x π h)

theorem foldl_reaches : ∀ (s : List String) (x : String) (t : DTree) (ρ π : List String),
    x ∈ s → normalizePath x = some ρ → π <+: ρ →
    (followPath (List.foldl buildStep t s) π).isSome := by
  intro s
  induction s with
  | nil => intro x t ρ π hx _ _; simp at hx
  | cons y ys ih =>
    intro x t ρ π hx hn hpre
    rw [List.foldl_cons]
    rcases List.mem_cons.mp hx with h1 | h1
    · subst h1
      apply foldl_followPath_mono
      rw [show buildStep t x = insertPath t ρ from by unfold buildStep; rw [hn]]
      exact followPath_insertPath_prefix π ρ t hpre
    · exact ih x (buildStep t y) ρ π h1 hn hpre

theorem followPath_snoc_children : ∀ (π : List String) (t : DTree) (s : String),
    (followPath t (π ++ [s])).isSome →
    ∃ n, followPath t π = some n ∧ n.children ≠ [] := by
  intro π
  induction π with
  | nil =>
    intro t s h
    cases t with
    | mk cs =>
      refine ⟨.mk cs, rfl, ?_⟩
      intro hcs
      rw [show cs = ([] : List (String × DTree)) from hcs] at h
      simp [followPath, lookupChild] at h
  | cons a π' ih =>
    intro t s h
    cases t with
    | mk cs =>
      rw [List.cons_append] at h
      cases hl : lookupChild cs a with
      | none => simp [followPath, hl] at h
      | some c =>
        simp only [followPath, hl] at h
        obtain ⟨n, hn, hne⟩ := ih c s h
        exact ⟨n, by simp only [followPath, hl]; exact hn, hne⟩

/-! ### Each node of a well-formed tree is rendered exactly once -/

theorem renderAnnF_shape : ∀ (f : Nat) (t : DTree) (level : Nat) (σ : List String)
    (e : List String × String), e ∈ renderAnnF f t level σ →
    ∃ k rest, e.1 = σ ++ k :: rest := by
  intro f
  induction f with
  | zero => intro t level σ e he; simp [renderAnnF] at he
  | succ f ih =>
    intro t level σ e he
    simp only [renderAnnF] at he
    rw [List.mem_flatMap] at he
    obtain ⟨name, _, he⟩ := he
    cases hl : lookupChild t.children name with
    | none => simp [hl] at he
    | some child =>
      simp only [hl] at he
      by_cases hlev : (level == 0) = true
      · simp only [if_pos hlev] at he
        rcases List.mem_cons.mp he with h1 | h1
        · exact ⟨name, [], by rw [h1]⟩
        · obtain ⟨k, rest, hk⟩ := ih child (level + 1) (σ ++ [name]) e h1
          exact ⟨name, k :: rest, by rw [hk]; simp⟩
      · simp only [if_neg hlev] at he
        by_cases hce : child.children.isEmpty = true
        · simp only [if_pos hce, List.mem_singleton] at he
          exact ⟨name, [], by rw [he]⟩
        · simp only [if_neg hce] at he
          rcases List.mem_cons.mp he with h1 | h1
          · exact ⟨name, [], by rw [h1]⟩
          · obtain ⟨k, rest, hk⟩ := ih child (level + 1) (σ ++ [name]) e h1
            exact ⟨name, k :: rest, by rw [hk]; simp⟩

theorem flatMap_paths_nodup {B : String → List (List String × String)} {σ : List String} :
    ∀ (ks : List String), ks.Nodup →
    (∀ k e, e ∈ B k → ∃ r, e.1 = σ ++ k :: r) →
    (∀ k, ((B k).map Prod.fst).Nodup) →
    ((ks.flatMap B).map Prod.fst).Nodup := by
  intro ks
  induction ks with
  | nil => intro _ _ _; simp
  | cons k ks ihk =>
    intro hnd hshape hblock
    rw [List.flatMap_cons, List.map_append, List.nodup_append]
    refine ⟨hblock k, ihk (List.nodup_cons.mp hnd).2 hshape hblock, ?_⟩
    intro a ha hb
    rw [List.mem_map] at ha
    obtain ⟨e, he, hea⟩ := ha
    obtain ⟨r, hr⟩ := hshape k e he
    rw [List.mem_map] at hb
    obtain ⟨e2, he2, he2a⟩ := hb
    rw [List.mem_flatMap] at he2
    obtain ⟨k2, hk2, he2m⟩ := he2
    obtain ⟨r2, hr2⟩ := hshape k2 e2 he2m
    have heq : σ ++ k :: r = σ ++ k2 :: r2 := by
      rw [← hr, ← hr2, hea, he2a]
    have hkk : k = k2 := by
      have := List.append_cancel_left heq
      injection this
    exact (List.nodup_cons.mp hnd).1 (hkk ▸ hk2)

theorem renderAnnF_nodup : ∀ (f : Nat) (t : DTree) (level : Nat) (σ : List String),
    treeWF t = true → DTree.size t ≤ f →
    ((renderAnnF f t level σ).map Prod.fst).Nodup := by
  intro f
  induction f with
  | zero => intro t _ _ _ h1; have := size_pos t; omega
  | succ f ih =>
    intro t level σ hwf hsz
    cases t with
    | mk cs =>
      rw [size_mk] at hsz
      simp only [renderAnnF, children_mk]
      refine flatMap_paths_nodup (σ := σ) (sortedKeys cs) ?_ ?_ ?_
      · have := keysNodup_iff.mp (treeWF_keys hwf)
        exact ((List.perm_insertionSort strLeP (cs.map Prod.fst)).nodup_iff).mpr this
      · intro k e he
        cases hl : lookupChild cs k with
        | none => simp [hl] at he
        | some child =>
          simp only [hl] at he
          by_cases hlev : (level == 0) = true
          · simp only [if_pos hlev] at he
            rcases List.mem_cons.mp he with h1 | h1
            · exact ⟨[], by rw [h1]⟩
            · obtain ⟨k2, r2, hk2⟩ := renderAnnF_shape f child (level + 1) (σ ++ [k]) e h1
              exact ⟨k2 :: r2, by rw [hk2]; simp⟩
          · simp only [if_neg hlev] at he
            by_cases hce : child.children.isEmpty = true
            · simp only [if_pos hce, List.mem_singleton] at he
              exact ⟨[], by rw [he]⟩
            · simp only [if_neg hce] at he
              rcases List.mem_cons.mp he with h1 | h1
              · exact ⟨[], by rw [h1]⟩
              · obtain ⟨k2, r2, hk2⟩ := renderAnnF_shape f child (level + 1) (σ ++ [k]) e h1
                exact ⟨k2 :: r2, by rw [hk2]; simp⟩
      · intro k
        cases hl : lookupChild cs k with
        | none => simp
        | some child =>
          have hchild : treeWF child = true := treeWF_children hwf (lookupChild_mem hl)
          have hcsz : DTree.size child ≤ f := le_trans (lookupChild_size hl) (by omega)
          have hrec := ih child (level + 1) (σ ++ [k]) hchild hcsz
          have hhead : (σ ++ [k]) ∉ (renderAnnF f child (level + 1) (σ ++ [k])).map Prod.fst := by
            intro hmem
            rw [List.mem_map] at hmem
            obtain ⟨e, he, hea⟩ := hmem
            obtain ⟨k2, r2, hk2⟩ := renderAnnF_shape f child (level + 1) (σ ++ [k]) e he
            rw [hk2] at hea
            have := congrArg List.length hea
            simp at this
          by_cases hlev : (level == 0) = true
          · simp only [if_pos hlev, List.map_cons, List.nodup_cons]
            exact ⟨hhead, hrec⟩
          · simp only [if_neg hlev]
            by_cases hce : child.children.isEmpty = true
            · simp only [if_pos hce]
              simp
            · simp only [if_neg hce, List.map_cons, List.nodup_cons]
              exact ⟨hhead, hrec⟩

theorem filter_single_of_nodup : ∀ (l : List (List String × String)) (x : List String × String),
    x ∈ l → (l.map Prod.fst).Nodup →
    l.filter (fun e => decide (e.1 = x.1)) = [x] := by
  intro l
  induction l with
  | nil => intro x hx _; simp at hx
  | cons y ys ih =>
    intro x hx hnd
    rw [List.map_cons, List.nodup_cons] at hnd
    obtain ⟨hy, hnd2⟩ := hnd
    rcases List.mem_cons.mp hx with h1 | h1
    · subst h1
      rw [List.filter_cons, if_pos (by simp)]
      have hrest : ys.filter (fun e => decide (e.1 = x.1)) = [] := by
        rw [List.filter_eq_nil_iff]
        intro e he
        simp only [decide_eq_true_eq]
        intro heq
        exact hy (heq ▸ List.mem_map_of_mem Prod.fst he)
      rw [hrest]
    · have hne : ¬(y.1 = x.1) := by
        intro heq
        exact hy (heq ▸ List.mem_map_of_mem Prod.fst h1)
      rw [List.filter_cons, if_neg (by simpa using hne)]
      exact ih x h1 hnd2

theorem renderAnnF_mem_dir : ∀ (τ : List String) (f : Nat) (t : DTree) (σ : List String)
    (name : String) (n : DTree),
    DTree.size t ≤ f →
    followPath t (τ ++ [name]) = some n → n.children ≠ [] →
    1 ≤ σ.length + τ.length →
    ((σ ++ (τ ++ [name]),
      indentStr (σ.length + τ.length - 1) ++ "- **" ++ name ++ "/**") ∈
      renderAnnF f t σ.length σ) := by
  intro τ
  induction τ with
  | nil =>
    intro f t σ name n hsz hfp hne hlev
    simp only [List.length_nil, Nat.add_zero] at hlev
    cases t with
    | mk cs =>
      cases f with
      | zero => have := size_pos (DTree.mk cs); omega
      | succ f =>
        rw [List.nil_append] at hfp
        cases hl : lookupChild cs name with
        | none => simp [followPath, hl] at hfp
        | some c =>
          simp only [followPath, hl] at hfp
          have hcn : c = n := by injection hfp
          simp only [renderAnnF, children_mk]
          rw [List.mem_flatMap]
          refine ⟨name, ?_, ?_⟩
          · exact ((List.perm_insertionSort strLeP (cs.map Prod.fst)).mem_iff).mpr
              (List.mem_map_of_mem Prod.fst (lookupChild_mem hl))
          · simp only [hl]
            have hlev0 : ¬((σ.length == 0) = true) := by
              simp only [beq_iff_eq]
              omega
            rw [if_neg hlev0]
            have hce : ¬(c.children.isEmpty = true) := by
              simp only [List.isEmpty_iff]
              rw [hcn]
              exact hne
            rw [if_neg hce]
            simp
  | cons a τ2 ih =>
    intro f t σ name n hsz hfp hne hlev
    cases t with
    | mk cs =>
      cases f with
      | zero => have := size_pos (DTree.mk cs); omega
      | succ f =>
        rw [size_mk] at hsz
        rw [List.cons_append] at hfp
        cases hl : lookupChild cs a with
        | none => simp [followPath, hl] at hfp
        | some c =>
          simp only [followPath, hl] at hfp
          have hcsz : DTree.size c ≤ f := le_trans (lookupChild_size hl) (by omega)
          have hmem := ih f c (σ ++ [a]) name n hcsz hfp hne
            (by simp only [List.length_append, List.length_cons, List.length_nil]; omega)
          have hmem2 : ((σ ++ ((a :: τ2) ++ [name]),
              indentStr (σ.length + (a :: τ2).length - 1) ++ "- **" ++ name ++ "/**") ∈
              renderAnnF f c (σ.length + 1) (σ ++ [a])) := by
            have h1 : σ ++ ((a :: τ2) ++ [name]) = (σ ++ [a]) ++ (τ2 ++ [name]) := by simp
            have h2 : σ.length + (a :: τ2).length - 1 = (σ ++ [a]).length + τ2.length - 1 := by
              simp only [List.length_append, List.length_cons, List.length_nil]
              omega
            have h3 : σ.length + 1 = (σ ++ [a]).length := by simp
            rw [h1, h2, h3]
            exact hmem
          simp only [renderAnnF, children_mk]
          rw [List.mem_flatMap]
          refine ⟨a, ?_, ?_⟩
          · exact ((List.perm_insertionSort strLeP (cs.map Prod.fst)).mem_iff).mpr
              (List.mem_map_of_mem Prod.fst (lookupChild_mem hl))
          · simp only [hl]
            by_cases hlev0 : (σ.length == 0) = true
            · rw [if_pos hlev0]
              exact List.mem_cons_of_mem _ hmem2
            · rw [if_neg hlev0]
              have hcc : ¬(c.children.isEmpty = true) := by
                cases c with
                | mk cc =>
                  cases cc with
                  | nil =>
                    exfalso
                    cases τ2 with
                    | nil => simp [followPath, lookupChild] at hfp
                    | cons b τ3 => simp [followPath, lookupChild] at hfp
                  | cons q qs => simp [children_mk]
              rw [if_neg hcc]
              exact List.mem_cons_of_mem _ hmem2

/-! ### The renderer agrees with the specification-side renderer -/

theorem sortPairs_map_fst (cs : List (String × DTree)) :
    (sortPairs cs).map Prod.fst = sortedKeys cs := by
  apply List.eq_of_perm_of_sorted (r := strLeP)
  · exact ((List.perm_insertionSort pairLeP cs).map Prod.fst).trans
      (List.perm_insertionSort strLeP (cs.map Prod.fst)).symm
  · exact List.Pairwise.map Prod.fst (fun _ _ h => h)
      (List.sorted_insertionSort pairLeP cs)
  · exact List.sorted_insertionSort strLeP (cs.map Prod.fst)

theorem lookup_of_mem_nodup : ∀ {cs : List (String × DTree)} {k : String} {c : DTree},
    keysNodup (cs.map Prod.fst) = true → (k, c) ∈ cs → lookupChild cs k = some c := by
  intro cs
  induction cs with
  | nil => intro k c _ hm; simp at hm
  | cons p rest ih =>
    intro k c hnd hm
    obtain ⟨k0, c0⟩ := p
    have hnodup : (k0 :: rest.map Prod.fst).Nodup := by
      have := keysNodup_iff.mp hnd
      simpa using this
    rcases List.mem_cons.mp hm with h1 | h1
    · obtain ⟨rfl, rfl⟩ : k0 = k ∧ c0 = c := by
        constructor
        · exact (congrArg Prod.fst h1).symm
        · exact (congrArg Prod.snd h1).symm
      rw [lookupChild, if_pos rfl]
    · by_cases hk : k0 = k
      · exfalso
        apply (List.nodup_cons.mp hnodup).1
        subst hk
        rw [List.mem_map]
        exact ⟨(k0, c), h1, rfl⟩
      · rw [lookupChild, if_neg hk]
        exact ih (keysNodup_iff.mpr (List.nodup_cons.mp hnodup).2) h1

theorem render_spec_aux : ∀ (N : Nat) (t : DTree), DTree.size t ≤ N → treeWF t = true →
    (render t 0 = specRenderRoot t ∧ ∀ d, 1 ≤ d → render t d = specChildren t d) := by
  intro N
  induction N with
  | zero => intro t h _; have := size_pos t; omega
  | succ N ih =>
    intro t hsz hwf
    cases t with
    | mk cs =>
      rw [size_mk] at hsz
      have hmem_facts : ∀ p ∈ sortPairs cs, p ∈ cs :=
        fun p hp => ((List.perm_insertionSort pairLeP cs).mem_iff).mp hp
      have hlook : ∀ p ∈ sortPairs cs, lookupChild cs p.1 = some p.2 := by
        intro p hp
        obtain ⟨k, c⟩ := p
        exact lookup_of_mem_nodup (treeWF_keys hwf) (hmem_facts _ hp)
      have hwfc : ∀ p ∈ sortPairs cs, treeWF p.2 = true :=
        fun p hp => treeWF_children hwf (hmem_facts _ hp)
      have hszc : ∀ p ∈ sortPairs cs, DTree.size p.2 ≤ N :=
        fun p hp => le_trans (mem_sizeL (hmem_facts _ hp)) (by omega)
      constructor
      · rw [render_eq, specRenderRoot, ← sortPairs_map_fst, List.flatMap_map]
        apply List.flatMap_congr
        intro p hp
        simp only [hlook p hp]
        rw [if_pos (show ((0 : Nat) == 0) = true from rfl)]
        congr 1
        exact ((ih p.2 (hszc p hp) (hwfc p hp)).2 1 le_rfl)
      · intro d hd
        rw [render_eq, specChildren_eq, ← sortPairs_map_fst, List.flatMap_map]
        apply List.flatMap_congr
        intro p hp
        simp only [hlook p hp]
        have hd0 : ¬((d == 0) = true) := by
          simp only [beq_iff_eq]
          omega
        rw [if_neg hd0]
        cases hc : p.2.children with
        | nil =>
          rw [if_pos (show (([] : List (String × DTree)).isEmpty = true) from rfl)]
        | cons q qs =>
          rw [if_neg (show ¬(((q :: qs) : List (String × DTree)).isEmpty = true) by simp)]
          show _ = (indentStr (d - 1) ++ "- **" ++ p.1 ++ "/**") :: specChildren p.2 (d + 1)
          congr 1
          exact ((ih p.2 (hszc p hp) (hwfc p hp)).2 (d + 1) (by omega))

/-! ### Pre-order contiguity: a node line immediately precedes its subtree block -/

theorem render_mem_sortedKeys {cs : List (String × DTree)} {name : String} {child : DTree}
    (hl : lookupChild cs name = some child) : name ∈ sortedKeys cs :=
  ((List.perm_insertionSort strLeP (cs.map Prod.fst)).mem_iff).mpr
    (List.mem_map_of_mem Prod.fst (lookupChild_mem hl))

theorem render_contiguous_dir {cs : List (String × DTree)} {name : String} {child : DTree}
    {level : Nat} (hlev : 1 ≤ level) (hl : lookupChild cs name = some child)
    (hne : child.children ≠ []) :
    ∃ pre post, render (.mk cs) level =
      pre ++ (indentStr (level - 1) ++ "- **" ++ name ++ "/**") ::
        (render child (level + 1) ++ post) := by
  have hd0 : ¬((level == 0) = true) := by
    simp only [beq_iff_eq]
    omega
  have hce : ¬(child.children.isEmpty = true) := by
    simp only [List.isEmpty_iff]
    exact hne
  have hF : ∃ F : String → List String,
      render (.mk cs) level = (sortedKeys cs).flatMap F ∧
      F name = (indentStr (level - 1) ++ "- **" ++ name ++ "/**") ::
        render child (level + 1) := by
    refine ⟨_, render_eq cs level, ?_⟩
    simp only [hl]
    rw [if_neg hd0, if_neg hce]
  obtain ⟨F, hrender, hFname⟩ := hF
  obtain ⟨A, B, hAB⟩ := List.append_of_mem (render_mem_sortedKeys hl)
  refine ⟨A.flatMap F, B.flatMap F, ?_⟩
  rw [hrender, hAB, List.flatMap_append, List.flatMap_cons, hFname]
  simp [List.append_assoc]

theorem render_contiguous_heading {cs : List (String × DTree)} {name : String}
    {child : DTree} (hl : lookupChild cs name = some child) :
    ∃ pre post, render (.mk cs) 0 =
      pre ++ ("# " ++ name) :: (render child 1 ++ post) := by
  have hF : ∃ F : String → List String,
      render (.mk cs) 0 = (sortedKeys cs).flatMap F ∧
      F name = ("# " ++ name) :: render child 1 := by
    refine ⟨_, render_eq cs 0, ?_⟩
    simp only [hl]
    rw [if_pos (show ((0 : Nat) == 0) = true from rfl)]
  obtain ⟨F, hrender, hFname⟩ := hF
  obtain ⟨A, B, hAB⟩ := List.append_of_mem (render_mem_sortedKeys hl)
  refine ⟨A.flatMap F, B.flatMap F, ?_⟩
  rw [hrender, hAB, List.flatMap_append, List.flatMap_cons, hFname]
  simp [List.append_assoc]

/-! ### The claims -/

/-- C1 counterexample: on the spec scenario input, the generated output is not
the claimed six lines with the directory entries indented two spaces and the
leaf entries indented four spaces. -/
theorem c1_counterexample :
    outputOf ["PROJECT INSTRUCTIONS/A/x.txt", "PROJECT INSTRUCTIONS/A/y.txt",
      "PROJECT INSTRUCTIONS/B/z.txt", "ignored/no-anchor/here"] ≠
    "# PROJECT INSTRUCTIONS\n  - **A/**\n    - x.txt\n    - y.txt\n  - **B/**\n    - z.txt" := by
  decide

/-- C1 (amended): on the spec scenario input the output is exactly the six
lines with the heading at column zero, the directory entries at zero indent
and the leaf entries indented two spaces, and the line without the anchor
contributes nothing (removing it leaves the output unchanged). -/
theorem c1_scenario_output :
    outputOf ["PROJECT INSTRUCTIONS/A/x.txt", "PROJECT INSTRUCTIONS/A/y.txt",
      "PROJECT INSTRUCTIONS/B/z.txt", "ignored/no-anchor/here"] =
      "# PROJECT INSTRUCTIONS\n- **A/**\n  - x.txt\n  - y.txt\n- **B/**\n  - z.txt" ∧
    outputOf ["PROJECT INSTRUCTIONS/A/x.txt", "PROJECT INSTRUCTIONS/A/y.txt",
      "PROJECT INSTRUCTIONS/B/z.txt", "ignored/no-anchor/here"] =
    outputOf ["PROJECT INSTRUCTIONS/A/x.txt", "PROJECT INSTRUCTIONS/A/y.txt",
      "PROJECT INSTRUCTIONS/B/z.txt"] := by
  constructor
  · decide
  · decide

/-- C2: the renderer of the script agrees, on every well-formed tree, with the
renderer written from the specification text: each direct child of the
synthetic root is emitted as a heading line, and at depth d at least 1 a node
with children is emitted as an indented bold directory line with indent two
spaces repeated d - 1 times (zero indent for a direct child of a heading)
followed by its children at depth d + 1, while a childless node is emitted as
a plain leaf line. -/
theorem c2_render_matches_spec : ∀ (t : DTree), treeWF t = true →
    (render t 0 = specRenderRoot t ∧ ∀ d, 1 ≤ d → render t d = specChildren t d) :=
  fun t h => render_spec_aux (DTree.size t) t le_rfl h

/-- C2 witness: the refinement instantiated on a concrete tree. -/
theorem c2_witness :
    treeWF (treeOf ["PROJECT INSTRUCTIONS/A/x.txt"]) = true ∧
    render (treeOf ["PROJECT INSTRUCTIONS/A/x.txt"]) 0 =
      specRenderRoot (treeOf ["PROJECT INSTRUCTIONS/A/x.txt"]) ∧
    render (treeOf ["PROJECT INSTRUCTIONS/A/x.txt"]) 1 =
      specChildren (treeOf ["PROJECT INSTRUCTIONS/A/x.txt"]) 1 :=
  ⟨by decide, (c2_render_matches_spec _ (by decide)).1,
    (c2_render_matches_spec _ (by decide)).2 1 (by decide)⟩

/-- C3: when the input resource is missing, the program prints exactly one
message naming the missing resource, returns normally, and writes nothing. -/
theorem c3_missing_input :
    generate_tree none = (["Error: project_instructions_raw.txt not found"], none) := by
  decide

/-- C4: a path entry whose segments do not contain the anchor is discarded
silently (the tree is unchanged and nothing is derived from it), and a path
entry containing the anchor inserts exactly the suffix of its segments from
the first anchor occurrence to the end. -/
theorem c4_anchor_filter : ∀ (t : DTree) (path : String),
    (ROOT_NAME ∉ strSplit path '/' → buildStep t path = t) ∧
    (∀ pre post, strSplit path '/' = pre ++ ROOT_NAME :: post → ROOT_NAME ∉ pre →
      buildStep t path = insertPath t (ROOT_NAME :: post)) := by
  intro t path
  constructor
  · intro hnot
    have hn : normalizePath path = none := by
      simp only [normalizePath, indexOfSeg_eq_none.mpr hnot]
    simp only [buildStep, hn]
  · intro pre post hsplit hpre
    have hidx : indexOfSeg (strSplit path '/') ROOT_NAME = some pre.length := by
      rw [hsplit]
      exact indexOfSeg_first pre post hpre
    have hdrop : (strSplit path '/').drop pre.length = ROOT_NAME :: post := by
      rw [hsplit, List.drop_left]
    have hn : normalizePath path = some (ROOT_NAME :: post) := by
      simp only [normalizePath, hidx, hdrop]
    simp only [buildStep, hn]

/-- C4 witness: the two behaviors at concrete inputs. -/
theorem c4_witness :
    buildStep (.mk []) "nope/zzz" = .mk [] ∧
    buildStep (.mk []) "a/PROJECT INSTRUCTIONS/b" =
      insertPath (.mk []) (ROOT_NAME :: ["b"]) :=
  ⟨(c4_anchor_filter (.mk []) "nope/zzz").1 (by decide),
   (c4_anchor_filter (.mk []) "a/PROJECT INSTRUCTIONS/b").2 ["a"] ["b"]
     (by decide) (by decide)⟩

/-- C5: the output is a deterministic function of the input lines and is
invariant under permuting them: any two permuted raw line lists produce
byte-identical output. -/
theorem c5_perm_invariant : ∀ (l₁ l₂ : List String), List.Perm l₁ l₂ →
    outputOf l₁ = outputOf l₂ :=
  fun _ _ h => outputOf_perm h

/-- C5 witness: permuting two concrete input lines leaves the output
unchanged. -/
theorem c5_witness :
    outputOf ["PROJECT INSTRUCTIONS/b", "PROJECT INSTRUCTIONS/a"] =
    outputOf ["PROJECT INSTRUCTIONS/a", "PROJECT INSTRUCTIONS/b"] :=
  c5_perm_invariant _ _ (by decide)

/-- C6: tree insertion is idempotent (inserting the same segment sequence
twice yields the same tree as inserting it once, with no duplicate nodes),
and consequently a duplicate input line does not change the output. -/
theorem c6_insert_idempotent :
    (∀ (t : DTree) (p : List String), insertPath (insertPath t p) p = insertPath t p) ∧
    (∀ (x : String) (lines : List String), x ∈ lines →
      outputOf (x :: lines) = outputOf lines) :=
  ⟨fun t p => insertPath_idem p t, fun _ _ hx => outputOf_dup hx⟩

/-- C6 witness: duplicating a concrete line leaves the output unchanged. -/
theorem c6_witness :
    outputOf ("PROJECT INSTRUCTIONS/a" :: ["PROJECT INSTRUCTIONS/a"]) =
    outputOf ["PROJECT INSTRUCTIONS/a"] :=
  c6_insert_idempotent.2 "PROJECT INSTRUCTIONS/a" ["PROJECT INSTRUCTIONS/a"] (by decide)

/-- C7: every tree built by the pipeline has pairwise distinct sibling names;
the sorted sibling names at any node are in strict lexicographic order; and
the traversal is depth-first pre-order: the line of a directory node (and of
an anchor heading) is immediately followed by the whole rendered block of its
subtree, so every ancestor line precedes all lines of its descendants. -/
theorem c7_order :
    (∀ rawLines, treeWF (treeOf rawLines) = true) ∧
    (∀ cs : List (String × DTree), treeWF (.mk cs) = true →
      List.Pairwise (fun a b => strLeP a b ∧ a ≠ b) (sortedKeys cs)) ∧
    (∀ (cs : List (String × DTree)) (level : Nat) (name : String) (child : DTree),
      1 ≤ level → lookupChild cs name = some child → child.children ≠ [] →
      ∃ pre post, render (.mk cs) level =
        pre ++ (indentStr (level - 1) ++ "- **" ++ name ++ "/**") ::
          (render child (level + 1) ++ post)) ∧
    (∀ (cs : List (String × DTree)) (name : String) (child : DTree),
      lookupChild cs name = some child →
      ∃ pre post, render (.mk cs) 0 =
        pre ++ ("# " ++ name) :: (render child 1 ++ post)) := by
  refine ⟨treeOf_WF, ?_, ?_, ?_⟩
  · intro cs hwf
    have hsorted : List.Pairwise strLeP (sortedKeys cs) :=
      List.sorted_insertionSort strLeP (cs.map Prod.fst)
    have hnd : (sortedKeys cs).Nodup :=
      ((List.perm_insertionSort strLeP (cs.map Prod.fst)).nodup_iff).mpr
        (keysNodup_iff.mp (treeWF_keys hwf))
    exact hsorted.and hnd
  · intro cs level name child hlev hl hne
    exact render_contiguous_dir hlev hl hne
  · intro cs name child hl
    exact render_contiguous_heading hl

/-- C7 witness: the four parts instantiated at concrete inputs. -/
theorem c7_witness :
    treeWF (treeOf ["PROJECT INSTRUCTIONS/a"]) = true ∧
    List.Pairwise (fun a b => strLeP a b ∧ a ≠ b)
      (sortedKeys [("B", DTree.mk []), ("A", DTree.mk [])]) ∧
    (∃ pre post, render (.mk [("A", DTree.mk [("x", DTree.mk [])])]) 1 =
      pre ++ (indentStr (1 - 1) ++ "- **" ++ "A" ++ "/**") ::
        (render (DTree.mk [("x", DTree.mk [])]) (1 + 1) ++ post)) ∧
    (∃ pre post, render (.mk [("A", DTree.mk [("x", DTree.mk [])])]) 0 =
      pre ++ ("# " ++ "A") :: (render (DTree.mk [("x", DTree.mk [])]) 1 ++ post)) :=
  ⟨c7_order.1 ["PROJECT INSTRUCTIONS/a"],
   c7_order.2.1 _ (by decide),
   c7_order.2.2.1 _ 1 "A" _ (by decide) rfl
     (by rw [children_mk]; exact List.cons_ne_nil _ _),
   c7_order.2.2.2 _ "A" _ rfl⟩

/-- C8: an input with zero non-blank lines produces the empty string as the
written output and the success message naming the output resource. -/
theorem c8_empty_input : ∀ (rawLines : List String), cleanLines rawLines = [] →
    generate_tree (some rawLines) =
      (["Tree generated in " ++ OUTPUT_FILE], some "") := by
  intro rawLines h
  simp only [generate_tree, outputOf, treeOf, buildTree, h]
  rfl

/-- C8 witness: a concrete input of blank lines. -/
theorem c8_witness :
    generate_tree (some ["", "   "]) =
      (["Tree generated in " ++ OUTPUT_FILE], some "") :=
  c8_empty_input ["", "   "] (by decide)

/-- C9 counterexample: a trimmed, non-blank input line may split into
segments that include the empty string, and the builder then creates a tree
node with an empty name. -/
theorem c9_counterexample :
    strTrim "PROJECT INSTRUCTIONS//x" = "PROJECT INSTRUCTIONS//x" ∧
    ("PROJECT INSTRUCTIONS//x" : String).isEmpty = false ∧
    "" ∈ strSplit "PROJECT INSTRUCTIONS//x" '/' ∧
    allNamesOk (treeOf ["PROJECT INSTRUCTIONS//x"]) = false := by
  refine ⟨by decide, by decide, by decide, by decide⟩

/-- C9 (amended): when every retained input line splits into only non-empty
segments, no tree node with an empty name is ever created; the code itself
performs no validation, and doubled slashes do create empty-named nodes. -/
theorem c9_nonempty_segments : ∀ (rawLines : List String),
    (∀ l ∈ cleanLines rawLines, ∀ s ∈ strSplit l '/', s.isEmpty = false) →
    allNamesOk (treeOf rawLines) = true := by
  intro rawLines h
  unfold treeOf buildTree
  apply foldl_namesOk _ _ allNamesOk_nil
  intro l hl
  exact h l (((sortLines_perm _).mem_iff).mp hl)

/-- C9 witness: a concrete input with only non-empty segments. -/
theorem c9_witness : allNamesOk (treeOf ["PROJECT INSTRUCTIONS/a"]) = true :=
  c9_nonempty_segments ["PROJECT INSTRUCTIONS/a"] (by decide)

/-- C10 counterexample: when the shorter of two nested input paths is the
anchor itself, its final segment is rendered as a heading line, not as a
directory line with the bold marker, so the claim as stated fails. -/
theorem c10_counterexample :
    normalizePath "PROJECT INSTRUCTIONS" = some ["PROJECT INSTRUCTIONS"] ∧
    normalizePath "PROJECT INSTRUCTIONS/x" = some ["PROJECT INSTRUCTIONS", "x"] ∧
    (["PROJECT INSTRUCTIONS"] : List String) ≠ ["PROJECT INSTRUCTIONS", "x"] ∧
    (∃ δ, ["PROJECT INSTRUCTIONS"] ++ δ = ["PROJECT INSTRUCTIONS", "x"]) ∧
    outputOf ["PROJECT INSTRUCTIONS", "PROJECT INSTRUCTIONS/x"] =
      "# PROJECT INSTRUCTIONS\n- x" := by
  refine ⟨by decide, by decide, by decide, ⟨["x"], rfl⟩, by decide⟩

/-- C10 (amended): if the normalized segment sequence of one input path is a
proper prefix of that of another input path and has length at least two, then
the node of the shorter path is rendered exactly once, as a directory line
with the bold marker at its depth, and never additionally as a plain leaf
line. -/
theorem c10_prefix_dir : ∀ (rawLines : List String) (lp lq : String)
    (π ρ σ : List String) (name : String),
    lp ∈ cleanLines rawLines → lq ∈ cleanLines rawLines →
    normalizePath lp = some π → normalizePath lq = some ρ →
    π <+: ρ → π ≠ ρ → π = σ ++ [name] → σ ≠ [] →
    ((render (treeOf rawLines) 0 = (renderAnn (treeOf rawLines) 0 []).map Prod.snd) ∧
     (renderAnn (treeOf rawLines) 0 []).filter (fun e => decide (e.1 = π)) =
       [(π, indentStr (σ.length - 1) ++ "- **" ++ name ++ "/**")]) := by
  intro rawLines lp lq π ρ σ name hlp hlq hnp hnq hpre hne hπ hσ
  refine ⟨render_renderAnn _ _ _, ?_⟩
  have hwf : treeWF (treeOf rawLines) = true := treeOf_WF rawLines
  obtain ⟨δ, hδ⟩ := hpre
  have hδne : δ ≠ [] := by
    intro h
    apply hne
    rw [← hδ, h, List.append_nil]
  obtain ⟨d, δ2, rfl⟩ : ∃ d δ2, δ = d :: δ2 := by
    cases δ with
    | nil => exact absurd rfl hδne
    | cons d δ2 => exact ⟨d, δ2, rfl⟩
  have hpre2 : (π ++ [d]) <+: ρ := ⟨δ2, by rw [← hδ]; simp⟩
  have hsome : (followPath (treeOf rawLines) (π ++ [d])).isSome := by
    unfold treeOf buildTree
    apply foldl_reaches _ lq _ ρ _ ?_ hnq hpre2
    exact ((sortLines_perm _).mem_iff).mpr hlq
  rw [Option.isSome_iff_exists] at hsome
  obtain ⟨m, hm⟩ := hsome
  obtain ⟨n, hn, hnne⟩ := followPath_snoc_children π (treeOf rawLines) d
    (by rw [hm]; rfl)
  have hσlen : 1 ≤ σ.length := by
    cases σ with
    | nil => exact absurd rfl hσ
    | cons s σ2 => simp
  have hfp : followPath (treeOf rawLines) (σ ++ [name]) = some n := by
    rw [← hπ]
    exact hn
  have hmem := renderAnnF_mem_dir σ (DTree.size (treeOf rawLines))
    (treeOf rawLines) [] name n le_rfl hfp hnne
    (by simp only [List.length_nil, Nat.zero_add]; exact hσlen)
  have hmem2 : ((π, indentStr (σ.length - 1) ++ "- **" ++ name ++ "/**") ∈
      renderAnn (treeOf rawLines) 0 []) := by
    unfold renderAnn
    have h1 : ([] : List String) ++ (σ ++ [name]) = π := by rw [hπ]; simp
    have h2 : ([] : List String).length + σ.length - 1 = σ.length - 1 := by simp
    rw [← h1, ← h2]
    exact hmem
  have hnd : ((renderAnn (treeOf rawLines) 0 []).map Prod.fst).Nodup := by
    unfold renderAnn
    exact renderAnnF_nodup _ _ 0 [] hwf le_rfl
  have := filter_single_of_nodup (renderAnn (treeOf rawLines) 0 [])
    (π, indentStr (σ.length - 1) ++ "- **" ++ name ++ "/**") hmem2 hnd
  exact this

/-- C10 witness: the amended statement instantiated at a concrete input. -/
theorem c10_witness :
    (render (treeOf ["PROJECT INSTRUCTIONS/A", "PROJECT INSTRUCTIONS/A/x"]) 0 =
      (renderAnn (treeOf ["PROJECT INSTRUCTIONS/A", "PROJECT INSTRUCTIONS/A/x"]) 0 []).map
        Prod.snd) ∧
    (renderAnn (treeOf ["PROJECT INSTRUCTIONS/A", "PROJECT INSTRUCTIONS/A/x"]) 0 []).filter
      (fun e => decide (e.1 = ["PROJECT INSTRUCTIONS", "A"])) =
      [((["PROJECT INSTRUCTIONS", "A"] : List String),
        indentStr ((["PROJECT INSTRUCTIONS"] : List String).length - 1) ++
          "- **" ++ "A" ++ "/**")] :=
  c10_prefix_dir ["PROJECT INSTRUCTIONS/A", "PROJECT INSTRUCTIONS/A/x"]
    "PROJECT INSTRUCTIONS/A" "PROJECT INSTRUCTIONS/A/x"
    ["PROJECT INSTRUCTIONS", "A"] ["PROJECT INSTRUCTIONS", "A", "x"]
    ["PROJECT INSTRUCTIONS"] "A" (by decide) (by decide) (by decide) (by decide)
    ⟨["x"], rfl⟩ (by decide) rfl (by decide)
